import Mathlib

/-!
Shallow embedding of the sports-trend-ranker pipeline (src/src/src/main1.py).

Numbers are modelled exactly over `ℚ` (Python floats become rationals),
timestamps are `Int` milliseconds since the epoch, and the ambient
"now", the `USE_TRENDS` flag and the external trend fetcher are explicit
parameters.  Each definition mirrors the Python function of the same name.
-/

namespace SportsTrendRanker

/-- An input item as built by the fetchers, with `entities` already attached
(`main` attaches them before calling `score_items`). -/
structure Item where
  source : String
  title : String
  url : String
  ts : Int
  ups : Int
  comments : Int
  entities : List String
  deriving Repr, DecidableEq

/-- A scored item: the original dict plus the six component fields and
`ViralityScore` that `score_items` adds. -/
structure Scored where
  item : Item
  R_up : ℚ
  R_com : ℚ
  Fresh : ℚ
  NewsVel : ℚ
  Cross : ℚ
  Trend : ℚ
  ViralityScore : ℚ
  deriving Repr, DecidableEq

/-- `SPORT_TERMS` from the source. -/
def SPORT_TERMS : List String := ["NFL", "NBA", "UFC", "Boxing", "Soccer"]

/-- Python `min(list, default=d)`. -/
def minD (l : List Int) (d : Int) : Int :=
  match l with
  | [] => d
  | x :: xs => xs.foldl min x

/-- Python `max(list, default=d)`. -/
def maxD (l : List Int) (d : Int) : Int :=
  match l with
  | [] => d
  | x :: xs => xs.foldl max x

/-- `hours_ago(ts_ms) = (now_ms() - ts_ms) / 3_600_000`, with "now" explicit. -/
def hours_ago (now ts : Int) : ℚ := ((now - ts : Int) : ℚ) / 3600000

/-- `normalize(val, lo, hi)`: 0 on a degenerate range, otherwise min-max
scaling clamped into [0,1]. -/
def normalize (val lo hi : ℚ) : ℚ :=
  if hi = lo then 0 else max 0 (min 1 ((val - lo) / (hi - lo)))

/-- Items whose timestamp lies in the trailing 12-hour window
(`it["ts"] >= twelve_ms`). -/
def windowItems (now : Int) (items : List Item) : List Item :=
  items.filter (fun it => decide (now - 12 * 3600 * 1000 ≤ it.ts))

/-- The `freq` counter: occurrences of the case-folded entity `e` over all
entities of in-window items.  `freq[k]` for an absent key is 0, as for a
Python `Counter`. -/
def freqOf (now : Int) (items : List Item) (e : String) : Nat :=
  ((windowItems now items).map
    (fun it => it.entities.countP (fun x => x.toLower == e))).sum

/-- All case-folded entity occurrences of in-window items: the multiset of
keys the `freq` counter was fed. -/
def allWindowEnts (now : Int) (items : List Item) : List String :=
  ((windowItems now items).map (fun it => it.entities.map String.toLower)).flatten

/-- `max_freq = max(freq.values(), default=1)`.  When the counter is nonempty
every value is ≥ 1, so taking `max 1` over the counts of all fed keys agrees
with Python in both the empty and the nonempty case. -/
def max_freq (now : Int) (items : List Item) : Nat :=
  max 1 (((allWindowEnts now items).map (freqOf now items)).foldl max 0)

/-- `entity_velocity(ents)`: 0 on an empty list, otherwise the sum of the
case-folded per-entity window frequencies divided by `max_freq`. -/
def entity_velocity (now : Int) (items : List Item) (ents : List String) : ℚ :=
  if ents = [] then 0
  else (((ents.map (fun e => ((freqOf now items e.toLower : ℚ)))).sum) /
    (max_freq now items : ℚ))

/-- `s.intersection(...)` being nonempty: the item shares at least one
case-folded entity with `ents`. -/
def sharesEntity (ents : List String) (it : Item) : Bool :=
  ents.any (fun e => it.entities.any (fun x => x.toLower == e.toLower))

/-- `cross_source(ents)`: 1 iff some reddit item and some news item each share
a case-folded entity with `ents`; 0 for an empty entity list. -/
def cross_source (items : List Item) (ents : List String) : Nat :=
  if ents.isEmpty then 0
  else if (items.any (fun i => i.source == "reddit" && sharesEntity ents i)) &&
      (items.any (fun i => i.source == "news" && sharesEntity ents i)) then 1
  else 0

/-- `slopes.get(core, 0.0)` on the association list representing the dict. -/
def lookupD (m : List (String × ℚ)) (k : String) (d : ℚ) : ℚ :=
  match m.find? (fun p => p.1 == k) with
  | some p => p.2
  | none => d

/-- Bool test that `pat` is an initial segment of `hay`. -/
def startsWithChars : List Char → List Char → Bool
  | [], _ => true
  | _ :: _, [] => false
  | p :: ps, c :: cs => p == c && startsWithChars ps cs

/-- Bool test that `pat` occurs contiguously in `hay` (Python `in` on str). -/
def containsChars (hay pat : List Char) : Bool :=
  if startsWithChars pat hay then true
  else
    match hay with
    | [] => false
    | _ :: cs => containsChars cs pat

/-- Python `pat in hay` for strings. -/
def hasSubstr (hay pat : String) : Bool := containsChars hay.toList pat.toList

/-- `trend_signal(ents)`: the maximum slope over core terms whose case-folded
form occurs in the joined case-folded entity text, mapped by
`clamp((val+1)/2, 0, 1)`. -/
def trend_signal (slopes : List (String × ℚ)) (ents : List String) : ℚ :=
  let joined := (String.intercalate " " ents).toLower
  let val := SPORT_TERMS.foldl
    (fun v core =>
      if hasSubstr joined core.toLower then max v (lookupD slopes core 0) else v)
    0
  max 0 (min 1 ((val + 1) / 2))

/-- One fetched interest-over-time series, or a failure.  The external
`pytrends` call is modelled as an explicit fetch oracle. -/
def getSeries (fetch : String → Except Unit (List ℚ)) (term : String) :
    Except Unit (List ℚ) := fetch term

/-- `get_trend_slopes(terms)`: `{}` when the feature is disabled; otherwise one
entry per term, with slope 0 on a failed fetch, an empty series, or a series
of fewer than 3 points, and `(y[-1] - y[0]) / 100` otherwise. -/
def get_trend_slopes (useTrends : Bool)
    (fetch : String → Except Unit (List ℚ)) (terms : List String) :
    List (String × ℚ) :=
  if !useTrends then []
  else
    terms.map (fun term =>
      match getSeries fetch term with
      | Except.error _ => (term, 0)
      | Except.ok y =>
        if y = [] then (term, 0)
        else if y.length < 3 then (term, 0)
        else (term, (y.getLastD 0 - y.headD 0) / 100))

/-- Round to 4 decimal places, ties to even (Python `round(x, 4)` on the exact
rational value). -/
def round4 (q : ℚ) : ℚ :=
  let s := q * 10000
  let f := ⌊s⌋
  let frac := s - (f : ℚ)
  let n : Int :=
    if frac < 1 / 2 then f
    else if 1 / 2 < frac then f + 1
    else if f % 2 = 0 then f else f + 1
  (n : ℚ) / 10000

/-- The dedup identity key: the url when non-empty (Python truthiness),
otherwise the lower-cased title. -/
def keyOf (s : Scored) : String :=
  if s.item.url ≠ "" then s.item.url else s.item.title.toLower

/-- One step of the dedup loop over the insertion-ordered dict `seen`:
insert a new key at the end, or replace the stored item when the new score is
strictly higher. -/
def dedupStep (seen : List (String × Scored)) (it : Scored) :
    List (String × Scored) :=
  match seen.find? (fun p => p.1 == keyOf it) with
  | none => seen ++ [(keyOf it, it)]
  | some _ =>
    seen.map (fun p =>
      if p.1 == keyOf it && p.2.ViralityScore < it.ViralityScore then
        (p.1, it)
      else p)

/-- The dedup phase: fold the loop over the scored items and take
`seen.values()` in insertion order of keys. -/
def dedupe (out : List Scored) : List Scored :=
  (out.foldl dedupStep []).map (fun p => p.2)

/-- `sorted(seen.values(), key=..., reverse=True)`: stable descending sort by
`ViralityScore`. -/
def rankSort (l : List Scored) : List Scored :=
  l.mergeSort (fun a b => decide (b.ViralityScore ≤ a.ViralityScore))

/-- The dedup-and-rank tail of `score_items`. -/
def rank (out : List Scored) : List Scored := rankSort (dedupe out)

/-- The per-item scoring body of `score_items`, given the batch-wide bounds
and the trend-slope dict. -/
def scoreOne (now : Int) (useTrends : Bool) (items : List Item)
    (min_up max_up min_com max_com : Int) (trend_slopes : List (String × ℚ))
    (it : Item) : Scored :=
  let R_up : ℚ :=
    if it.source == "reddit" then normalize it.ups min_up max_up else 0
  let R_com : ℚ :=
    if it.source == "reddit" then normalize it.comments min_com max_com else 0
  let Fresh : ℚ := max 0 (1 - hours_ago now it.ts / 24)
  let NewsVel : ℚ := entity_velocity now items it.entities
  let Cross : ℚ := (cross_source items it.entities : ℚ)
  let Trend : ℚ := if useTrends then trend_signal trend_slopes it.entities else 0
  let score : ℚ := (30 / 100) * R_up + (20 / 100) * R_com + (15 / 100) * Fresh +
    (20 / 100) * NewsVel + (10 / 100) * Cross + (5 / 100) * Trend
  { item := it, R_up := R_up, R_com := R_com, Fresh := Fresh,
    NewsVel := NewsVel, Cross := Cross, Trend := Trend,
    ViralityScore := round4 score }

/-- `r = [i for i in items if i["source"]=="reddit"]`. -/
def redditOf (items : List Item) : List Item :=
  items.filter (fun i => i.source == "reddit")

/-- `min_up = min([x["ups"] for x in r], default=0)`. -/
def min_up (items : List Item) : Int := minD ((redditOf items).map Item.ups) 0

/-- `max_up = max([x["ups"] for x in r], default=1)`. -/
def max_up (items : List Item) : Int := maxD ((redditOf items).map Item.ups) 1

/-- `min_com = min([x["comments"] for x in r], default=0)`. -/
def min_com (items : List Item) : Int :=
  minD ((redditOf items).map Item.comments) 0

/-- `max_com = max([x["comments"] for x in r], default=1)`. -/
def max_com (items : List Item) : Int :=
  maxD ((redditOf items).map Item.comments) 1

/-- The `out` list of `score_items`: compute the reddit engagement bounds and
the optional trend slopes, then score every item of the batch in order. -/
def scoredList (now : Int) (useTrends : Bool)
    (fetch : String → Except Unit (List ℚ)) (items : List Item) :
    List Scored :=
  items.map
    (scoreOne now useTrends items (min_up items) (max_up items)
      (min_com items) (max_com items)
      (get_trend_slopes useTrends fetch SPORT_TERMS))

/-- `score_items(items)`: score every item; then dedupe by identity key
keeping the strictly highest score and sort descending. -/
def score_items (now : Int) (useTrends : Bool)
    (fetch : String → Except Unit (List ℚ)) (items : List Item) :
    List Scored :=
  rank (scoredList now useTrends fetch items)

/-- The allowed NER label set of `extract_entities`. -/
def ALLOWED_LABELS : List String :=
  ["PERSON", "ORG", "GPE", "NORP", "EVENT", "WORK_OF_ART"]

/-- A word character for the regex word boundary `\b` (ASCII model). -/
def isWordChar (c : Char) : Bool := c.isAlphanum || c == '_'

/-- Maximal runs of characters satisfying `p` (the tokens the boundary-anchored
regexes of the source can match). -/
def runsOf (p : Char → Bool) : List Char → List (List Char)
  | [] => []
  | c :: cs =>
    if p c then (c :: cs.takeWhile p) :: runsOf p (cs.dropWhile p)
    else runsOf p cs
termination_by cs => cs.length
decreasing_by
  · exact Nat.lt_succ_of_le (List.dropWhile_sublist p).length_le
  · exact Nat.lt_succ_self _

/-- `re.findall(r"\b([A-Z]{2,})\b", text)`: the maximal word-character runs
that consist entirely of 2 or more uppercase ASCII letters. -/
def capsTokens (text : String) : List String :=
  (runsOf isWordChar text.toList).filterMap (fun run =>
    if 2 ≤ run.length && run.all Char.isUpper then some (String.mk run)
    else none)

/-- The dedup loop of `extract_entities`, processing the discovered entities
left to right with the set `seen` of case-folded values already kept: an
entity whose case-folded value is in `seen` is dropped, otherwise it is kept
(original casing) and its case-folded value added to `seen`. -/
def dedupeGo (seen : List String) : List String → List String
  | [] => []
  | e :: es =>
    if seen.contains e.toLower then dedupeGo seen es
    else e :: dedupeGo (e.toLower :: seen) es

/-- The dedup pass of `extract_entities`: keep the first occurrence of each
case-folded value, preserving order and original casing. -/
def dedupeByLower (ents : List String) : List String := dedupeGo [] ents

/-- Python `str.strip()`: drop leading and trailing whitespace (char-list
model of `ent.text.strip()`). -/
def strStrip (s : String) : String :=
  String.mk
    (((s.toList.dropWhile Char.isWhitespace).reverse.dropWhile
      Char.isWhitespace).reverse)

/-- The pre-dedup entity list of `extract_entities` in order of discovery:
NER spans with an allowed label (stripped), then the all-caps tokens. -/
def discovered (ner : String → List (String × String)) (text : String) :
    List String :=
  (((ner text).filter (fun p => ALLOWED_LABELS.contains p.2)).map
    (fun p => strStrip p.1)) ++ capsTokens text

/-- `extract_entities(text)`, with the external spaCy model abstracted as a
`ner` oracle returning `(span text, label)` pairs in document order: filter to
the allowed labels, strip, append the all-caps tokens, and dedupe by
case-folded value. -/
def extract_entities (ner : String → List (String × String)) (text : String) :
    List String :=
  dedupeByLower (discovered ner text)

/-- Modelled from the spec: the external spaCy `en_core_web_sm` NER model is
not part of the repository; the spec's entity-dedup test assumes it tags
"Patriots" as an organization in the test sentence, so the oracle used for
that concrete test does exactly that and nothing else. -/
def nerModel : String → List (String × String) := fun text =>
  if text = "NFL NFL nfl Patriots" then [("Patriots", "ORG")] else []

/-- The fixed verb vocabulary of `suggest_hook`. -/
def VERBS : List String :=
  ["exposed", "changes", "breaks", "proves", "ends", "reveals", "stuns",
    "shocks", "explodes", "erases"]

/-- `re.findall(r"[A-Za-z0-9']+", title)`: maximal runs of ASCII alphanumerics
and apostrophes. -/
def titleWords (title : String) : List String :=
  (runsOf (fun c => c.isAlphanum || c == '\'') title.toList).map String.mk

/-- `suggest_hook(title)`.  Python's built-in `hash` on `str` is salted per
process (`PYTHONHASHSEED`, documented CPython behaviour), so the process hash
function is an explicit parameter: one fixed `pyHash` per process. -/
def suggest_hook (pyHash : String → Int) (title : String) : String :=
  let words := titleWords title
  let subject :=
    if words = [] then "This" else String.intercalate " " (words.take 5)
  subject ++ " " ++ VERBS.getD ((pyHash title).emod 10).toNat "" ++
    " everything you thought."

/-! ### Specification-side notions used by the theorems -/

/-- The value stored under key `k` in an insertion-ordered association list. -/
def valAt (m : List (String × Scored)) (k : String) : Option Scored :=
  (m.find? (fun p => p.1 == k)).map (fun p => p.2)

/-- The first strict maximum of a run of candidates, starting from an optional
current best: the running best is replaced only by a strictly higher score, so
ties keep the earlier item. -/
def runBest (init : Option Scored) (l : List Scored) : Option Scored :=
  l.foldl
    (fun acc y =>
      match acc with
      | none => some y
      | some a => some (if a.ViralityScore < y.ViralityScore then y else a))
    init

/-- The items of `l` having identity key `k`, in order. -/
def groupOf (k : String) (l : List Scored) : List Scored :=
  l.filter (fun s => keyOf s == k)

/-! ### Concrete test fixtures -/

/-- A fetch oracle whose every call fails (also used where the trend feature
is disabled and the oracle is never consulted). -/
def fetchNone : String → Except Unit (List ℚ) := fun _ => Except.error ()

/-- A news item carrying ten distinct entities: each has window frequency 1,
so its entity velocity is 10 and its composite score exceeds 1. -/
def itemVel : Item :=
  { source := "news", title := "t", url := "u", ts := 0, ups := 0,
    comments := 0, entities := ["a", "b", "c", "d", "e", "f", "g", "h", "i", "j"] }

/-- A benign news item with a single entity (velocity 1). -/
def itemOk : Item :=
  { source := "news", title := "x", url := "", ts := 0, ups := 0,
    comments := 0, entities := ["a"] }

/-- A reddit item tagged "UFC" (corroboration example). -/
def itemRedUFC : Item :=
  { source := "reddit", title := "r", url := "ru", ts := 0, ups := 5,
    comments := 2, entities := ["UFC"] }

/-- A news item tagged "UFC" (corroboration example). -/
def itemNewsUFC : Item :=
  { source := "news", title := "n", url := "nu", ts := 0, ups := 0,
    comments := 0, entities := ["UFC"] }

/-- A fetch oracle failing on "NFL", short series on "NBA", valid rising
series on every other term. -/
def fetchMixed : String → Except Unit (List ℚ) := fun t =>
  if t = "NFL" then Except.error ()
  else if t = "NBA" then Except.ok [10, 20]
  else Except.ok [10, 20, 50]

/-- The carrier item of `exDupLow`. -/
def itemDupA : Item :=
  { source := "news", title := "A", url := "u", ts := 0, ups := 0,
    comments := 0, entities := [] }

/-- The carrier item of `exDupHigh`. -/
def itemDupB : Item :=
  { source := "news", title := "B", url := "u", ts := 0, ups := 0,
    comments := 0, entities := [] }

/-- A scored item with composite 0.4, url "u" (dedup example input). -/
def exDupLow : Scored :=
  { item := itemDupA, R_up := 0, R_com := 0, Fresh := 0, NewsVel := 0,
    Cross := 0, Trend := 0, ViralityScore := 4 / 10 }

/-- A scored item with composite 0.7, sharing url "u" with `exDupLow`. -/
def exDupHigh : Scored :=
  { item := itemDupB, R_up := 0, R_com := 0, Fresh := 0, NewsVel := 0,
    Cross := 0, Trend := 0, ViralityScore := 7 / 10 }

/-! ### Helper lemmas -/

attribute [local semireducible] Rat.add Rat.mul Rat.inv Rat.sub
attribute [local semireducible] String.mapAux List.merge List.mergeSort
attribute [local semireducible] SportsTrendRanker.runsOf

theorem round4_nonneg {q : ℚ} (h : 0 ≤ q) : 0 ≤ round4 q := by
  unfold round4
  dsimp only
  have hs : (0 : ℚ) ≤ q * 10000 := by positivity
  have hf : (0 : ℤ) ≤ ⌊q * 10000⌋ := Int.floor_nonneg.mpr hs
  have hstep : ∀ n : ℤ, 0 ≤ n → (0 : ℚ) ≤ (n : ℚ) / 10000 := by
    intro n hn
    have : (0 : ℚ) ≤ (n : ℚ) := by exact_mod_cast hn
    positivity
  split_ifs <;> [exact hstep _ hf; exact hstep _ (by omega); exact hstep _ hf;
    exact hstep _ (by omega)]

theorem round4_le_one {q : ℚ} (h : q ≤ 1) : round4 q ≤ 1 := by
  unfold round4
  dsimp only
  have hs : q * 10000 ≤ 10000 := by nlinarith
  have hf : ⌊q * 10000⌋ ≤ 10000 := by
    calc ⌊q * 10000⌋ ≤ ⌊(10000 : ℚ)⌋ := Int.floor_le_floor hs
    _ = 10000 := by norm_num
  have hstep : ∀ n : ℤ, n ≤ 10000 → (n : ℚ) / 10000 ≤ 1 := by
    intro n hn
    have h1 : (n : ℚ) ≤ 10000 := by exact_mod_cast hn
    linarith [div_le_one_of_le₀ h1 (by norm_num : (0 : ℚ) ≤ 10000)]
  have hfl : (⌊q * 10000⌋ : ℚ) ≤ q * 10000 := Int.floor_le _
  split_ifs with h1 h2 h3
  · exact hstep _ hf
  · -- fractional part strictly above 1/2 : the floor is at most 9999
    refine hstep _ ?_
    have h9 : (⌊q * 10000⌋ : ℚ) < 10000 - 1 / 2 := by linarith
    have h10 : (⌊q * 10000⌋ : ℚ) < 10000 := by linarith
    have : ⌊q * 10000⌋ < 10000 := by exact_mod_cast h10
    omega
  · -- exact tie, even floor: kept as is
    exact hstep _ hf
  · -- exact tie, odd floor: rounded up, but the floor is at most 9999
    refine hstep _ ?_
    have h9 : (⌊q * 10000⌋ : ℚ) = q * 10000 - 1 / 2 := by linarith
    have h10 : (⌊q * 10000⌋ : ℚ) ≤ 10000 - 1 / 2 := by linarith
    have : (⌊q * 10000⌋ : ℚ) < 10000 := lt_of_le_of_lt h10 (by norm_num)
    have : ⌊q * 10000⌋ < 10000 := by exact_mod_cast this
    omega

theorem normalize_nonneg (v lo hi : ℚ) : 0 ≤ normalize v lo hi := by
  unfold normalize
  split_ifs
  · exact le_refl 0
  · exact le_max_left 0 _

theorem normalize_le_one (v lo hi : ℚ) : normalize v lo hi ≤ 1 := by
  unfold normalize
  split_ifs
  · norm_num
  · exact max_le (by norm_num) (min_le_left 1 _)

@[simp] theorem scoreOne_item (now : Int) (useTrends : Bool)
    (items : List Item) (a b c d : Int) (ts : List (String × ℚ)) (it : Item) :
    (scoreOne now useTrends items a b c d ts it).item = it := rfl

@[simp] theorem scoreOne_R_up (now : Int) (useTrends : Bool)
    (items : List Item) (a b c d : Int) (ts : List (String × ℚ)) (it : Item) :
    (scoreOne now useTrends items a b c d ts it).R_up =
      (if it.source == "reddit" then normalize it.ups a b else 0) := rfl

@[simp] theorem scoreOne_R_com (now : Int) (useTrends : Bool)
    (items : List Item) (a b c d : Int) (ts : List (String × ℚ)) (it : Item) :
    (scoreOne now useTrends items a b c d ts it).R_com =
      (if it.source == "reddit" then normalize it.comments c d else 0) := rfl

@[simp] theorem scoreOne_Fresh (now : Int) (useTrends : Bool)
    (items : List Item) (a b c d : Int) (ts : List (String × ℚ)) (it : Item) :
    (scoreOne now useTrends items a b c d ts it).Fresh =
      max 0 (1 - hours_ago now it.ts / 24) := rfl

@[simp] theorem scoreOne_NewsVel (now : Int) (useTrends : Bool)
    (items : List Item) (a b c d : Int) (ts : List (String × ℚ)) (it : Item) :
    (scoreOne now useTrends items a b c d ts it).NewsVel =
      entity_velocity now items it.entities := rfl

@[simp] theorem scoreOne_Cross (now : Int) (useTrends : Bool)
    (items : List Item) (a b c d : Int) (ts : List (String × ℚ)) (it : Item) :
    (scoreOne now useTrends items a b c d ts it).Cross =
      (cross_source items it.entities : ℚ) := rfl

@[simp] theorem scoreOne_Trend (now : Int) (useTrends : Bool)
    (items : List Item) (a b c d : Int) (ts : List (String × ℚ)) (it : Item) :
    (scoreOne now useTrends items a b c d ts it).Trend =
      (if useTrends then trend_signal ts it.entities else 0) := rfl

theorem scoreOne_ViralityScore (now : Int) (useTrends : Bool)
    (items : List Item) (a b c d : Int) (ts : List (String × ℚ)) (it : Item) :
    (scoreOne now useTrends items a b c d ts it).ViralityScore =
      round4 ((30 / 100) * (scoreOne now useTrends items a b c d ts it).R_up +
        (20 / 100) * (scoreOne now useTrends items a b c d ts it).R_com +
        (15 / 100) * (scoreOne now useTrends items a b c d ts it).Fresh +
        (20 / 100) * (scoreOne now useTrends items a b c d ts it).NewsVel +
        (10 / 100) * (scoreOne now useTrends items a b c d ts it).Cross +
        (5 / 100) * (scoreOne now useTrends items a b c d ts it).Trend) := rfl

theorem mem_dedupStep {seen : List (String × Scored)} {it : Scored}
    {p : String × Scored} (h : p ∈ dedupStep seen it) : p.2 = it ∨ p ∈ seen := by
  unfold dedupStep at h
  cases hf : seen.find? (fun p => p.1 == keyOf it) with
  | none =>
    rw [hf] at h
    rcases List.mem_append.mp h with h1 | h1
    · exact Or.inr h1
    · left
      have := List.mem_singleton.mp h1
      rw [this]
  | some q =>
    rw [hf] at h
    rcases List.mem_map.mp h with ⟨x, hx, hfx⟩
    by_cases hc : (x.1 == keyOf it && x.2.ViralityScore < it.ViralityScore) = true
    · rw [if_pos hc] at hfx
      left
      rw [← hfx]
    · rw [if_neg hc] at hfx
      right
      rw [← hfx]
      exact hx

theorem mem_foldl_dedupStep :
    ∀ (l : List Scored) (seen : List (String × Scored)) (p : String × Scored),
      p ∈ l.foldl dedupStep seen → p.2 ∈ l ∨ p ∈ seen := by
  intro l
  induction l with
  | nil => intro seen p h; exact Or.inr h
  | cons it rest ih =>
    intro seen p h
    rw [List.foldl_cons] at h
    rcases ih (dedupStep seen it) p h with h1 | h1
    · exact Or.inl (List.mem_cons_of_mem _ h1)
    · rcases mem_dedupStep h1 with h2 | h2
      · exact Or.inl (h2 ▸ List.mem_cons_self _ _)
      · exact Or.inr h2

theorem mem_of_mem_dedupe {s : Scored} {out : List Scored}
    (h : s ∈ dedupe out) : s ∈ out := by
  unfold dedupe at h
  rcases List.mem_map.mp h with ⟨p, hp, hps⟩
  rcases mem_foldl_dedupStep out [] p hp with h1 | h1
  · exact hps ▸ h1
  · simp at h1

@[simp] theorem mem_rankSort {s : Scored} {l : List Scored} :
    s ∈ rankSort l ↔ s ∈ l := by
  unfold rankSort
  exact List.mem_mergeSort

theorem mem_score_items {s : Scored} {now : Int} {useTrends : Bool}
    {fetch : String → Except Unit (List ℚ)} {items : List Item}
    (h : s ∈ score_items now useTrends fetch items) :
    ∃ it ∈ items,
      s = scoreOne now useTrends items (min_up items) (max_up items)
        (min_com items) (max_com items)
        (get_trend_slopes useTrends fetch SPORT_TERMS) it := by
  unfold score_items rank at h
  have h1 : s ∈ scoredList now useTrends fetch items :=
    mem_of_mem_dedupe (mem_rankSort.mp h)
  unfold scoredList at h1
  rcases List.mem_map.mp h1 with ⟨it, hit, hs⟩
  exact ⟨it, hit, hs.symm⟩

theorem entity_velocity_nonneg (now : Int) (items : List Item)
    (ents : List String) : 0 ≤ entity_velocity now items ents := by
  unfold entity_velocity
  split_ifs
  · exact le_refl 0
  · refine div_nonneg ?_ (by positivity)
    refine List.sum_nonneg ?_
    intro x hx
    rcases List.mem_map.mp hx with ⟨e, _, he⟩
    rw [← he]
    positivity

theorem cross_source_eq_zero_or_one (items : List Item) (ents : List String) :
    cross_source items ents = 0 ∨ cross_source items ents = 1 := by
  unfold cross_source
  split_ifs <;> simp

theorem trend_signal_nonneg (slopes : List (String × ℚ)) (ents : List String) :
    0 ≤ trend_signal slopes ents := by
  unfold trend_signal
  exact le_max_left 0 _

theorem trend_signal_le_one (slopes : List (String × ℚ)) (ents : List String) :
    trend_signal slopes ents ≤ 1 := by
  unfold trend_signal
  exact max_le (by norm_num) (min_le_left 1 _)

/-! ### Claim theorems -/

/-- C5: `normalize(v, lo, hi)` returns 0.0 whenever `lo = hi`, regardless of
`v`; otherwise it returns the linear min-max scaling `(v - lo)/(hi - lo)`
clamped into [0,1]; in all cases the result lies in [0,1], even when `v` falls
outside `[lo, hi]`. -/
theorem c5_normalize_spec (v lo hi : ℚ) :
    (lo = hi → normalize v lo hi = 0) ∧
    (lo ≠ hi → normalize v lo hi = max 0 (min 1 ((v - lo) / (hi - lo)))) ∧
    0 ≤ normalize v lo hi ∧ normalize v lo hi ≤ 1 := by
  refine ⟨?_, ?_, normalize_nonneg v lo hi, normalize_le_one v lo hi⟩
  · intro h
    simp [normalize, h]
  · intro h
    rw [normalize, if_neg (fun hh => h hh.symm)]

/-- C5 witness: at `lo = hi = 2` the value 5 normalizes to 0, and at the
non-degenerate bounds (2,4) the value 3 normalizes to 1/2 ∈ [0,1]. -/
theorem c5_normalize_spec_witness :
    normalize 5 2 2 = 0 ∧ normalize 3 2 4 = max 0 (min 1 ((3 - 2) / (4 - 2))) := by
  exact ⟨(c5_normalize_spec 5 2 2).1 rfl,
    (c5_normalize_spec 3 2 4).2.1 (by norm_num)⟩

/-- C1 (counterexample): the composite `ViralityScore` does NOT always lie in
[0,1].  A single news item with ten distinct entities gets entity velocity 10,
so its composite is 0.15·1 + 0.20·10 = 2.15 > 1 — the velocity component is
unclamped. -/
theorem c1_counterexample :
    (score_items 0 false fetchNone [itemVel]).map Scored.ViralityScore =
        [43 / 20] ∧
      ¬ ((43 : ℚ) / 20 ≤ 1) := by
  constructor
  · decide
  · decide

/-- C1 (amended): every composite score is ≥ 0, and it is ≤ 1 provided the
item is not from the future and its entity-velocity component is at most 1
(the velocity component is the one unbounded summand; all other components
are bounded by their weights). -/
theorem c1_score_range (now : Int) (useTrends : Bool)
    (fetch : String → Except Unit (List ℚ)) (items : List Item) (s : Scored)
    (hs : s ∈ score_items now useTrends fetch items) :
    0 ≤ s.ViralityScore ∧
      (s.item.ts ≤ now → s.NewsVel ≤ 1 → s.ViralityScore ≤ 1) := by
  obtain ⟨it, hit, rfl⟩ := mem_score_items hs
  set a := min_up items
  set b := max_up items
  set c := min_com items
  set d := max_com items
  set ts := get_trend_slopes useTrends fetch SPORT_TERMS
  have hRup0 : 0 ≤ (scoreOne now useTrends items a b c d ts it).R_up := by
    rw [scoreOne_R_up]
    split_ifs
    · exact normalize_nonneg _ _ _
    · exact le_refl 0
  have hRup1 : (scoreOne now useTrends items a b c d ts it).R_up ≤ 1 := by
    rw [scoreOne_R_up]
    split_ifs
    · exact normalize_le_one _ _ _
    · norm_num
  have hRcom0 : 0 ≤ (scoreOne now useTrends items a b c d ts it).R_com := by
    rw [scoreOne_R_com]
    split_ifs
    · exact normalize_nonneg _ _ _
    · exact le_refl 0
  have hRcom1 : (scoreOne now useTrends items a b c d ts it).R_com ≤ 1 := by
    rw [scoreOne_R_com]
    split_ifs
    · exact normalize_le_one _ _ _
    · norm_num
  have hF0 : 0 ≤ (scoreOne now useTrends items a b c d ts it).Fresh := by
    rw [scoreOne_Fresh]
    exact le_max_left 0 _
  have hV0 : 0 ≤ (scoreOne now useTrends items a b c d ts it).NewsVel := by
    rw [scoreOne_NewsVel]
    exact entity_velocity_nonneg now items it.entities
  have hC0 : 0 ≤ (scoreOne now useTrends items a b c d ts it).Cross := by
    rw [scoreOne_Cross]
    positivity
  have hC1 : (scoreOne now useTrends items a b c d ts it).Cross ≤ 1 := by
    rw [scoreOne_Cross]
    rcases cross_source_eq_zero_or_one items it.entities with h | h <;>
      rw [h] <;> norm_num
  have hT0 : 0 ≤ (scoreOne now useTrends items a b c d ts it).Trend := by
    rw [scoreOne_Trend]
    split_ifs
    · exact trend_signal_nonneg _ _
    · exact le_refl 0
  have hT1 : (scoreOne now useTrends items a b c d ts it).Trend ≤ 1 := by
    rw [scoreOne_Trend]
    split_ifs
    · exact trend_signal_le_one _ _
    · norm_num
  constructor
  · rw [scoreOne_ViralityScore]
    apply round4_nonneg
    nlinarith [hRup0, hRcom0, hF0, hV0, hC0, hT0]
  · intro hts hvel
    rw [scoreOne_NewsVel] at hvel
    have hF1 : (scoreOne now useTrends items a b c d ts it).Fresh ≤ 1 := by
      rw [scoreOne_Fresh]
      refine max_le (by norm_num) ?_
      have h1 : (0 : ℚ) ≤ hours_ago now it.ts := by
        unfold hours_ago
        have h2 : (0 : ℚ) ≤ ((now - it.ts : Int) : ℚ) := by
          have := sub_nonneg.mpr hts
          exact_mod_cast this
        positivity
      linarith
    rw [scoreOne_ViralityScore]
    apply round4_le_one
    have hV1 : (scoreOne now useTrends items a b c d ts it).NewsVel ≤ 1 := by
      rw [scoreOne_NewsVel]
      exact hvel
    nlinarith [hRup1, hRcom1, hF1, hV1, hC1, hT1]

/-- C1 witness: on the benign single-entity batch the (unique) scored item
satisfies both hypotheses and its scores lie in [0,1]. -/
theorem c1_score_range_witness :
    0 ≤ ((score_items 0 false fetchNone [itemOk]).headD exDupLow).ViralityScore ∧
      ((score_items 0 false fetchNone [itemOk]).headD exDupLow).ViralityScore ≤ 1 := by
  have hmem : (score_items 0 false fetchNone [itemOk]).headD exDupLow ∈
      score_items 0 false fetchNone [itemOk] := by decide
  have h := c1_score_range 0 false fetchNone [itemOk] _ hmem
  exact ⟨h.1, h.2 (by decide) (by decide)⟩

theorem le_foldl_max (l : List Nat) (a : Nat) : a ≤ l.foldl max a := by
  induction l generalizing a with
  | nil => exact le_refl a
  | cons x xs ih => exact le_trans (Nat.le_max_left a x) (ih (max a x))

theorem mem_le_foldl_max (l : List Nat) (a : Nat) :
    ∀ x ∈ l, x ≤ l.foldl max a := by
  induction l generalizing a with
  | nil => intro x hx; simp at hx
  | cons y ys ih =>
    intro x hx
    rcases List.mem_cons.mp hx with h | h
    · subst h
      exact le_trans (Nat.le_max_right a x) (le_foldl_max ys (max a x))
    · exact ih (max a y) x h

theorem foldl_max_mem (l : List Nat) (a : Nat) :
    l.foldl max a = a ∨ l.foldl max a ∈ l := by
  induction l generalizing a with
  | nil => exact Or.inl rfl
  | cons y ys ih =>
    rcases ih (max a y) with h | h
    · rw [List.foldl_cons, h]
      rcases le_total a y with h2 | h2
      · exact Or.inr (by rw [Nat.max_eq_right h2]; exact List.mem_cons_self _ _)
      · exact Or.inl (Nat.max_eq_left h2)
    · exact Or.inr (List.mem_cons_of_mem y h)

theorem mem_le_sum_nat (l : List Nat) : ∀ x ∈ l, x ≤ l.sum := by
  induction l with
  | nil => intro x hx; simp at hx
  | cons y ys ih =>
    intro x hx
    rcases List.mem_cons.mp hx with h | h
    · subst h; simp
    · calc x ≤ ys.sum := ih x h
        _ ≤ y + ys.sum := Nat.le_add_left _ _
        _ = (y :: ys).sum := by simp

theorem freqOf_pos_of_mem (now : Int) (items : List Item) {e : String}
    (he : e ∈ allWindowEnts now items) : 1 ≤ freqOf now items e := by
  unfold allWindowEnts at he
  rcases List.mem_flatten.mp he with ⟨ents', hents', he'⟩
  rcases List.mem_map.mp hents' with ⟨it, hit, rfl⟩
  rcases List.mem_map.mp he' with ⟨x, hx, hxe⟩
  unfold freqOf
  have hc : 0 < it.entities.countP (fun y => y.toLower == e) :=
    List.countP_pos_iff.mpr ⟨x, hx, by rw [hxe]; exact beq_self_eq_true e⟩
  have hmem : it.entities.countP (fun y => y.toLower == e) ∈
      (windowItems now items).map
        (fun it => it.entities.countP (fun y => y.toLower == e)) :=
    List.mem_map_of_mem _ hit
  exact le_trans hc (mem_le_sum_nat _ _ hmem)

/-- C3: `entity_velocity` returns 0 on an empty entity list, and otherwise
the sum of case-folded per-entity window frequencies divided by `max_freq`;
`max_freq` is 1 when the window frequency map is empty and the maximum window
count otherwise; the quotient is not clamped and exceeds 1 on a concrete
entity-heavy batch. -/
theorem c3_entity_velocity_spec (now : Int) (items : List Item)
    (ents : List String) :
    entity_velocity now items [] = 0 ∧
    (ents ≠ [] → entity_velocity now items ents =
        ((ents.map (fun e => (freqOf now items e.toLower : ℚ))).sum) /
          (max_freq now items : ℚ)) ∧
    (allWindowEnts now items = [] → max_freq now items = 1) ∧
    (∀ e ∈ allWindowEnts now items, freqOf now items e ≤ max_freq now items) ∧
    (allWindowEnts now items ≠ [] →
        ∃ e ∈ allWindowEnts now items,
          freqOf now items e = max_freq now items) ∧
    1 < entity_velocity 0 [itemVel] itemVel.entities := by
  refine ⟨rfl, ?_, ?_, ?_, ?_, by decide⟩
  · intro h
    rw [entity_velocity, if_neg h]
  · intro h
    rw [max_freq, h]
    rfl
  · intro e he
    have h1 : freqOf now items e ≤
        ((allWindowEnts now items).map (freqOf now items)).foldl max 0 :=
      mem_le_foldl_max _ 0 _ (List.mem_map_of_mem _ he)
    exact le_trans h1 (Nat.le_max_right 1 _)
  · intro h
    set m := ((allWindowEnts now items).map (freqOf now items)).foldl max 0
      with hm
    rcases List.exists_mem_of_ne_nil _ h with ⟨e0, he0⟩
    have hpos : 1 ≤ m := by
      calc 1 ≤ freqOf now items e0 := freqOf_pos_of_mem now items he0
        _ ≤ m := mem_le_foldl_max _ 0 _ (List.mem_map_of_mem _ he0)
    rcases foldl_max_mem ((allWindowEnts now items).map (freqOf now items)) 0
        with hz | hmem
    · rw [← hm] at hz; omega
    · rw [← hm] at hmem
      rcases List.mem_map.mp hmem with ⟨e, he, hfe⟩
      refine ⟨e, he, ?_⟩
      rw [hfe, max_freq, ← hm]
      exact (Nat.max_eq_right hpos).symm

/-- C3 witness: the empty-list, formula, empty-window, bound and attainment
parts, instantiated on the concrete single-item batch. -/
theorem c3_entity_velocity_spec_witness :
    entity_velocity 0 [itemVel] ["a", "b"] =
        (((["a", "b"] : List String).map
          (fun e => (freqOf 0 [itemVel] e.toLower : ℚ))).sum) /
          (max_freq 0 [itemVel] : ℚ) ∧
      max_freq 0 [] = 1 ∧
      (∃ e ∈ allWindowEnts 0 [itemVel],
        freqOf 0 [itemVel] e = max_freq 0 [itemVel]) := by
  refine ⟨(c3_entity_velocity_spec 0 [itemVel] ["a", "b"]).2.1 (by decide),
    (c3_entity_velocity_spec 0 [] []).2.2.1 (by decide),
    (c3_entity_velocity_spec 0 [itemVel] []).2.2.2.2.1 (by decide)⟩

/-- C4: the corroboration flag is 1 exactly when some reddit item and some
news item each share a case-folded entity with the input entity set; it is 0
on an empty entity set; and every scored item's `Cross` component equals this
flag, hence is 0 or 1. -/
theorem c4_corroboration_spec (now : Int) (useTrends : Bool)
    (fetch : String → Except Unit (List ℚ)) (items : List Item)
    (ents : List String) :
    (cross_source items ents = 1 ↔
      ((∃ i ∈ items, i.source = "reddit" ∧
          ∃ e ∈ ents, ∃ x ∈ i.entities, x.toLower = e.toLower) ∧
        (∃ i ∈ items, i.source = "news" ∧
          ∃ e ∈ ents, ∃ x ∈ i.entities, x.toLower = e.toLower))) ∧
    (ents = [] → cross_source items ents = 0) ∧
    (∀ s ∈ score_items now useTrends fetch items,
        s.Cross = (cross_source items s.item.entities : ℚ) ∧
          (s.Cross = 0 ∨ s.Cross = 1)) := by
  have hany : ∀ src : String,
      ((items.any (fun i => i.source == src && sharesEntity ents i)) = true ↔
        (∃ i ∈ items, i.source = src ∧
          ∃ e ∈ ents, ∃ x ∈ i.entities, x.toLower = e.toLower)) := by
    intro src
    simp [sharesEntity, List.any_eq_true, Bool.and_eq_true, beq_iff_eq]
  refine ⟨?_, ?_, ?_⟩
  · constructor
    · intro h
      by_cases hemp : ents.isEmpty
      · rw [cross_source, if_pos hemp] at h
        exact absurd h (by norm_num)
      · rw [cross_source, if_neg hemp] at h
        by_cases hc : ((items.any
              (fun i => i.source == "reddit" && sharesEntity ents i)) &&
            (items.any
              (fun i => i.source == "news" && sharesEntity ents i))) = true
        · have hc' : (items.any
              (fun i => i.source == "reddit" && sharesEntity ents i)) = true ∧
              (items.any
                (fun i => i.source == "news" && sharesEntity ents i)) = true := by
            simpa using hc
          exact ⟨(hany "reddit").mp hc'.1, (hany "news").mp hc'.2⟩
        · rw [if_neg hc] at h
          exact absurd h (by norm_num)
    · rintro ⟨hA, hB⟩
      have h1 := (hany "reddit").mpr hA
      have h2 := (hany "news").mpr hB
      have hemp : ¬ ents.isEmpty = true := by
        rcases hA with ⟨i, _, _, e, he, _⟩
        intro hx
        rw [List.isEmpty_iff.mp hx] at he
        simp at he
      rw [cross_source, if_neg hemp, if_pos (by rw [h1, h2]; rfl)]
  · intro h
    rw [cross_source, if_pos (by rw [h]; rfl)]
  · intro s hs
    obtain ⟨it, hit, rfl⟩ := mem_score_items hs
    rw [scoreOne_Cross, scoreOne_item]
    refine ⟨rfl, ?_⟩
    rcases cross_source_eq_zero_or_one items it.entities with h | h <;>
      rw [h] <;> norm_num

/-- C4 witness: a concrete two-item batch (one reddit, one news, both tagged
"UFC") is corroborated, and a reddit-only batch is not; the scored `Cross`
components match. -/
theorem c4_corroboration_spec_witness :
    cross_source [itemRedUFC, itemNewsUFC] ["UFC"] = 1 ∧
      cross_source [itemRedUFC] ["UFC"] = 0 ∧
      ((score_items 0 false fetchNone [itemRedUFC, itemNewsUFC]).headD
          exDupLow).Cross =
        (cross_source [itemRedUFC, itemNewsUFC]
          (((score_items 0 false fetchNone
            [itemRedUFC, itemNewsUFC]).headD exDupLow).item.entities) : ℚ) := by
  refine ⟨?_, by decide, ?_⟩
  · exact (c4_corroboration_spec 0 false fetchNone [itemRedUFC, itemNewsUFC]
      ["UFC"]).1.mpr
      ⟨⟨itemRedUFC, by decide, by decide, "UFC", by decide, "UFC", by decide,
        by decide⟩,
        ⟨itemNewsUFC, by decide, by decide, "UFC", by decide, "UFC", by decide,
          by decide⟩⟩
  · exact ((c4_corroboration_spec 0 false fetchNone [itemRedUFC, itemNewsUFC]
      ["UFC"]).2.2 _ (by decide)).1

/-- C6: every scored item's `Fresh` component is
`max 0 (1 - hours_ago(ts)/24)`; an item exactly 24 hours old (or older) has
freshness 0, an item dated "now" has freshness 1, and in between freshness is
the linear function `1 - (now - ts)/24h`. -/
theorem c6_freshness_spec (now : Int) (useTrends : Bool)
    (fetch : String → Except Unit (List ℚ)) (items : List Item) :
    (∀ s ∈ score_items now useTrends fetch items,
        s.Fresh = max 0 (1 - hours_ago now s.item.ts / 24)) ∧
    (∀ ts : Int, now - 24 * 3600000 ≤ ts → ts ≤ now →
        max (0 : ℚ) (1 - hours_ago now ts / 24) =
          1 - ((now - ts : Int) : ℚ) / (24 * 3600000)) ∧
    (∀ ts : Int, ts ≤ now - 24 * 3600000 →
        max (0 : ℚ) (1 - hours_ago now ts / 24) = 0) ∧
    max (0 : ℚ) (1 - hours_ago now now / 24) = 1 := by
  have heq : ∀ ts : Int, hours_ago now ts / 24 =
      ((now - ts : Int) : ℚ) / (24 * 3600000) := by
    intro ts
    rw [hours_ago, div_div]
    norm_num
  refine ⟨?_, ?_, ?_, ?_⟩
  · intro s hs
    obtain ⟨it, hit, rfl⟩ := mem_score_items hs
    rw [scoreOne_Fresh, scoreOne_item]
  · intro ts h1 h2
    have hcast : ((now - ts : Int) : ℚ) ≤ 24 * 3600000 := by
      have h3 : (now - ts : Int) ≤ 24 * 3600000 := by omega
      exact_mod_cast h3
    rw [heq ts]
    refine max_eq_right ?_
    have h4 : ((now - ts : Int) : ℚ) / (24 * 3600000) ≤ 1 := by
      rw [div_le_one (by norm_num)]
      exact hcast
    linarith
  · intro ts h1
    have hcast : (24 * 3600000 : ℚ) ≤ ((now - ts : Int) : ℚ) := by
      have h3 : (24 * 3600000 : Int) ≤ now - ts := by omega
      exact_mod_cast h3
    rw [heq ts]
    refine max_eq_left ?_
    have h4 : (1 : ℚ) ≤ ((now - ts : Int) : ℚ) / (24 * 3600000) := by
      rw [le_div_iff₀ (by norm_num)]
      linarith
    linarith
  · rw [hours_ago]
    simp

/-- C6 witness: at `now = 0`, a timestamp 24 hours old scores freshness 0, a
timestamp 12 hours old scores the linear value 1/2, and "now" scores 1. -/
theorem c6_freshness_spec_witness :
    max (0 : ℚ) (1 - hours_ago 0 (-86400000) / 24) = 0 ∧
      max (0 : ℚ) (1 - hours_ago 0 (-43200000) / 24) =
        1 - ((0 - (-43200000) : Int) : ℚ) / (24 * 3600000) ∧
      max (0 : ℚ) (1 - hours_ago 0 0 / 24) = 1 := by
  refine ⟨(c6_freshness_spec 0 false fetchNone []).2.2.1 (-86400000)
      (by norm_num),
    (c6_freshness_spec 0 false fetchNone []).2.1 (-43200000) (by norm_num)
      (by norm_num),
    (c6_freshness_spec 0 false fetchNone []).2.2.2⟩

/-- C7: with the trend feature disabled `get_trend_slopes` consults no fetch
oracle (its result does not depend on it), returns the empty dict, and every
scored item's `Trend` component is 0; with the feature enabled every term of
the requested list still gets an entry (a per-term failure never aborts the
run), and a term whose fetch fails, or whose series is empty or shorter than
3 points, gets slope 0. -/
theorem c7_trend_isolation (fetch fetch2 : String → Except Unit (List ℚ))
    (terms : List String) (now : Int) (items : List Item) :
    (get_trend_slopes false fetch terms = get_trend_slopes false fetch2 terms) ∧
    (get_trend_slopes false fetch terms = []) ∧
    (∀ s ∈ score_items now false fetch items, s.Trend = 0) ∧
    ((get_trend_slopes true fetch terms).map Prod.fst = terms) ∧
    (∀ term, fetch term = Except.error () →
        ∀ q ∈ get_trend_slopes true fetch terms, q.1 = term → q.2 = 0) ∧
    (∀ term y, fetch term = Except.ok y → (y = [] ∨ y.length < 3) →
        ∀ q ∈ get_trend_slopes true fetch terms, q.1 = term → q.2 = 0) := by
  have hfst : ∀ term, (match getSeries fetch term with
      | Except.error _ => (term, (0 : ℚ))
      | Except.ok y =>
        if y = [] then (term, 0)
        else if y.length < 3 then (term, 0)
        else (term, (y.getLastD 0 - y.headD 0) / 100)).1 = term := by
    intro term
    unfold getSeries
    cases hf2 : fetch term with
    | error e => rfl
    | ok y =>
      dsimp only
      split_ifs <;> rfl
  refine ⟨rfl, rfl, ?_, ?_, ?_, ?_⟩
  · intro s hs
    obtain ⟨it, hit, rfl⟩ := mem_score_items hs
    rw [scoreOne_Trend]
    rfl
  · rw [get_trend_slopes, if_neg (by simp), List.map_map]
    conv_rhs => rw [← List.map_id terms]
    refine List.map_congr_left ?_
    intro term _
    exact hfst term
  · intro term herr q hq hq1
    rw [get_trend_slopes, if_neg (by simp)] at hq
    rcases List.mem_map.mp hq with ⟨t, _, hft⟩
    have ht : t = term := by rw [← hq1, ← hft]; exact (hfst t).symm
    subst ht
    rw [← hft]
    rw [show getSeries fetch t = Except.error () from herr]
  · intro term y hok hshort q hq hq1
    rw [get_trend_slopes, if_neg (by simp)] at hq
    rcases List.mem_map.mp hq with ⟨t, _, hft⟩
    have ht : t = term := by rw [← hq1, ← hft]; exact (hfst t).symm
    subst ht
    rw [← hft]
    rw [show getSeries fetch t = Except.ok y from hok]
    rcases hshort with h | h
    · simp [h]
    · by_cases he : y = []
      · simp [he]
      · simp [he, h]

/-- C7 witness: with a fetcher that fails on "NFL", returns a 2-point series
for "NBA" and a 3-point rising series for "UFC", the disabled run returns the
empty dict and the enabled run keeps all five terms, giving "NFL" and "NBA"
slope 0. -/
theorem c7_trend_isolation_witness :
    get_trend_slopes false fetchMixed SPORT_TERMS = [] ∧
      (get_trend_slopes true fetchMixed SPORT_TERMS).map Prod.fst =
        SPORT_TERMS ∧
      (∀ q ∈ get_trend_slopes true fetchMixed SPORT_TERMS, q.1 = "NFL" →
        q.2 = 0) ∧
      (∀ q ∈ get_trend_slopes true fetchMixed SPORT_TERMS, q.1 = "NBA" →
        q.2 = 0) := by
  refine ⟨(c7_trend_isolation fetchMixed fetchMixed SPORT_TERMS 0 []).2.1,
    (c7_trend_isolation fetchMixed fetchMixed SPORT_TERMS 0 []).2.2.2.1,
    (c7_trend_isolation fetchMixed fetchMixed SPORT_TERMS 0 []).2.2.2.2.1
      "NFL" rfl,
    fun q hq hq1 =>
      (c7_trend_isolation fetchMixed fetchMixed SPORT_TERMS 0 []).2.2.2.2.2
        "NBA" [10, 20] rfl (Or.inr (by norm_num)) q hq hq1⟩

/-- C9 (counterexample): the promotional phrase is NOT a function of the
title alone across processes: Python's `hash` on `str` is salted per process,
and two process hash functions that differ on the title yield different
verbs. -/
theorem c9_counterexample :
    suggest_hook (fun _ => 0) "Go" ≠ suggest_hook (fun _ => 1) "Go" := by
  decide

/-- C9 (amended): within one process (one fixed hash function) the phrase is
determined by the title alone — any two hash functions agreeing on the title
give the same phrase — and the verb is always drawn from the fixed 10-word
vocabulary at index `hash(title) mod 10`. -/
theorem c9_hook_deterministic (h1 h2 : String → Int) (t : String)
    (he : h1 t = h2 t) :
    suggest_hook h1 t = suggest_hook h2 t ∧
    ∃ i : Nat, i < VERBS.length ∧
      suggest_hook h1 t =
        (if titleWords t = [] then "This"
          else String.intercalate " " ((titleWords t).take 5)) ++ " " ++
          VERBS.getD i "" ++ " everything you thought." := by
  constructor
  · rw [suggest_hook, suggest_hook, he]
  · refine ⟨((h1 t).emod 10).toNat, ?_, rfl⟩
    have h0 : 0 ≤ (h1 t).emod 10 := Int.emod_nonneg _ (by norm_num)
    have hlt : (h1 t).emod 10 < 10 := Int.emod_lt_of_pos _ (by norm_num)
    have hn : ((h1 t).emod 10).toNat < 10 := by omega
    simpa [VERBS] using hn

/-- C9 witness: two syntactically different hash functions that agree on the
title "Go" produce the same phrase. -/
theorem c9_hook_deterministic_witness :
    suggest_hook (fun _ => 3) "Go" =
      suggest_hook (fun s => (s.length : Int) + 1) "Go" :=
  (c9_hook_deterministic (fun _ => 3) (fun s => (s.length : Int) + 1) "Go"
    (by decide)).1

/-- C10: scoring is frame-preserving on item identity data: every item in the
ranked output carries one of the input items unchanged — same source, title,
url, timestamp and entities — with only the score fields added around it. -/
theorem c10_frame_preservation (now : Int) (useTrends : Bool)
    (fetch : String → Except Unit (List ℚ)) (items : List Item) (s : Scored)
    (hs : s ∈ score_items now useTrends fetch items) :
    s.item ∈ items ∧
    ∃ it ∈ items, s.item.source = it.source ∧ s.item.title = it.title ∧
      s.item.url = it.url ∧ s.item.ts = it.ts ∧
      s.item.entities = it.entities := by
  obtain ⟨it, hit, rfl⟩ := mem_score_items hs
  rw [scoreOne_item]
  exact ⟨hit, it, hit, rfl, rfl, rfl, rfl, rfl⟩

/-- C10 witness: the single output item of a concrete run carries the input
item unchanged. -/
theorem c10_frame_preservation_witness :
    ((score_items 0 false fetchNone [itemOk]).headD exDupLow).item ∈
      [itemOk] :=
  (c10_frame_preservation 0 false fetchNone [itemOk] _ (by decide)).1

theorem contains_eq_mem (seen : List String) (k : String) :
    seen.contains k = true ↔ k ∈ seen := by
  simp [List.contains_iff_exists_mem_beq]

theorem dedupeGo_sublist (seen : List String) (l : List String) :
    (dedupeGo seen l).Sublist l := by
  induction l generalizing seen with
  | nil => simp [dedupeGo]
  | cons e es ih =>
    rw [dedupeGo]
    split_ifs
    · exact (ih seen).cons e
    · exact (ih (e.toLower :: seen)).cons₂ e

theorem dedupeGo_lower_notin_seen (seen : List String) (l : List String) :
    ∀ x ∈ dedupeGo seen l, x.toLower ∉ seen := by
  induction l generalizing seen with
  | nil => intro x hx; simp [dedupeGo] at hx
  | cons e es ih =>
    intro x hx
    rw [dedupeGo] at hx
    split_ifs at hx with hc
    · exact ih seen x hx
    · rcases List.mem_cons.mp hx with h | h
      · subst h
        intro hmem
        exact hc ((contains_eq_mem seen x.toLower).mpr hmem)
      · intro hmem
        exact ih (e.toLower :: seen) x h (List.mem_cons_of_mem _ hmem)

theorem dedupeGo_lower_nodup (seen : List String) (l : List String) :
    ((dedupeGo seen l).map String.toLower).Nodup := by
  induction l generalizing seen with
  | nil => simp [dedupeGo]
  | cons e es ih =>
    rw [dedupeGo]
    split_ifs with hc
    · exact ih seen
    · rw [List.map_cons]
      refine List.Nodup.cons ?_ (ih (e.toLower :: seen))
      intro hmem
      rcases List.mem_map.mp hmem with ⟨x, hx, hxe⟩
      exact dedupeGo_lower_notin_seen (e.toLower :: seen) es x hx
        (by rw [hxe]; exact List.mem_cons_self _ _)

theorem dedupeGo_covers (seen : List String) (l : List String) :
    ∀ e ∈ l, e.toLower ∈ seen ∨
      ∃ x ∈ dedupeGo seen l, x.toLower = e.toLower := by
  induction l generalizing seen with
  | nil => intro e he; simp at he
  | cons y ys ih =>
    intro e he
    rw [dedupeGo]
    split_ifs with hc
    · rcases List.mem_cons.mp he with h | h
      · subst h
        exact Or.inl ((contains_eq_mem seen e.toLower).mp hc)
      · exact ih seen e h
    · rcases List.mem_cons.mp he with h | h
      · subst h
        exact Or.inr ⟨e, List.mem_cons_self _ _, rfl⟩
      · rcases ih (y.toLower :: seen) e h with hmem | ⟨x, hx, hxe⟩
        · rcases List.mem_cons.mp hmem with h2 | h2
          · exact Or.inr ⟨y, List.mem_cons_self _ _, h2.symm⟩
          · exact Or.inl h2
        · exact Or.inr ⟨x, List.mem_cons_of_mem _ hx, hxe⟩

theorem dedupeGo_first (seen : List String) (l : List String) :
    ∀ x ∈ dedupeGo seen l,
      l.find? (fun y => y.toLower == x.toLower) = some x := by
  induction l generalizing seen with
  | nil => intro x hx; simp [dedupeGo] at hx
  | cons y ys ih =>
    intro x hx
    rw [dedupeGo] at hx
    split_ifs at hx with hc
    · have hy : y.toLower ∈ seen := (contains_eq_mem seen y.toLower).mp hc
      have hxs : x.toLower ∉ seen := dedupeGo_lower_notin_seen seen ys x hx
      have hne : ¬ (y.toLower == x.toLower) = true := by
        intro hbeq
        exact hxs (beq_iff_eq.mp hbeq ▸ hy)
      rw [@List.find?_cons_of_neg _ (fun z => z.toLower == x.toLower) y ys hne]
      exact ih seen x hx
    · rcases List.mem_cons.mp hx with h | h
      · subst h
        exact List.find?_cons_of_pos _ (beq_self_eq_true _)
      · have hxs : x.toLower ∉ y.toLower :: seen :=
          dedupeGo_lower_notin_seen (y.toLower :: seen) ys x h
        have hne : ¬ (y.toLower == x.toLower) = true := by
          intro hbeq
          exact hxs (beq_iff_eq.mp hbeq ▸ List.mem_cons_self _ _)
        rw [@List.find?_cons_of_neg _ (fun z => z.toLower == x.toLower) y ys hne]
        exact ih (y.toLower :: seen) x h

/-- C8: for every NER oracle and input text, `extract_entities` returns a
list deduplicated by case-folded value — the lowered output has no
duplicates, the output is an order-preserving sublist of the discovered
entities, every discovered case-folded value is represented, and each kept
entry is the first-discovered occurrence (so the first-seen casing is kept);
on "NFL NFL nfl Patriots" (with the spec-modelled NER oracle) the result is
exactly one "NFL" and one "Patriots". -/
theorem c8_extract_entities_dedup (ner : String → List (String × String))
    (text : String) :
    ((extract_entities ner text).map String.toLower).Nodup ∧
    (extract_entities ner text).Sublist (discovered ner text) ∧
    (∀ e ∈ discovered ner text,
      ∃ x ∈ extract_entities ner text, x.toLower = e.toLower) ∧
    (∀ x ∈ extract_entities ner text,
      (discovered ner text).find? (fun y => y.toLower == x.toLower) = some x) ∧
    extract_entities nerModel "NFL NFL nfl Patriots" = ["Patriots", "NFL"] := by
  refine ⟨dedupeGo_lower_nodup [] (discovered ner text),
    dedupeGo_sublist [] (discovered ner text), ?_, ?_, by decide⟩
  · intro e he
    rcases dedupeGo_covers [] (discovered ner text) e he with h | h
    · simp at h
    · exact h
  · intro x hx
    exact dedupeGo_first [] (discovered ner text) x hx

/-- C8 witness: in the concrete sentence the first-seen casing "NFL" is the
stored representative of the case-folded value "nfl". -/
theorem c8_extract_entities_dedup_witness :
    (discovered nerModel "NFL NFL nfl Patriots").find?
      (fun y => y.toLower == "NFL".toLower) = some "NFL" :=
  (c8_extract_entities_dedup nerModel "NFL NFL nfl Patriots").2.2.2.1 "NFL"
    (by decide)

theorem fst_dedupStep_entry (it : Scored) (p : String × Scored) :
    ((if p.1 == keyOf it && p.2.ViralityScore < it.ViralityScore then
      (p.1, it) else p)).1 = p.1 := by
  split_ifs <;> rfl

theorem valAt_dedupStep (seen : List (String × Scored)) (it : Scored)
    (k : String) :
    valAt (dedupStep seen it) k =
      (if k = keyOf it then
        (match valAt seen k with
          | none => some it
          | some a =>
            some (if a.ViralityScore < it.ViralityScore then it else a))
        else valAt seen k) := by
  unfold dedupStep
  cases hf : seen.find? (fun p => p.1 == keyOf it) with
  | none =>
    rw [valAt, List.find?_append]
    by_cases hk : k = keyOf it
    · subst hk
      rw [hf, if_pos rfl]
      simp [valAt, hf]
    · rw [if_neg hk]
      have hsing : ([(keyOf it, it)].find? (fun p => p.1 == k)) = none := by
        simp [beq_iff_eq]
        exact fun h => hk h.symm
      rw [hsing, Option.or_none, valAt]
  | some q =>
    rw [valAt, List.find?_map]
    have hpred : ((fun p : String × Scored => p.1 == k) ∘
        (fun p : String × Scored =>
          if p.1 == keyOf it && p.2.ViralityScore < it.ViralityScore then
            (p.1, it) else p)) = (fun p : String × Scored => p.1 == k) := by
      funext p
      exact congrArg (fun z => z == k) (fst_dedupStep_entry it p)
    rw [hpred]
    by_cases hk : k = keyOf it
    · subst hk
      rw [if_pos rfl, valAt, hf]
      have hq : (q.1 == keyOf it) = true := by
        have h2 := List.find?_some hf
        exact h2
      simp only [Option.map_some']
      by_cases hlt : q.2.ViralityScore < it.ViralityScore
      · rw [if_pos (by rw [hq, decide_eq_true hlt]; rfl), if_pos hlt]
      · rw [if_neg (by rw [hq, decide_eq_false hlt]; exact Bool.false_ne_true),
          if_neg hlt]
    · rw [if_neg hk, valAt]
      cases hfk : seen.find? (fun p => p.1 == k) with
      | none => rfl
      | some p =>
        simp only [Option.map_some']
        have hp : (p.1 == k) = true := by
          have h2 := List.find?_some hfk
          exact h2
        have hpk : (p.1 == keyOf it) = false := by
          refine beq_eq_false_iff_ne.mpr ?_
          rw [beq_iff_eq.mp hp]
          exact hk
        rw [if_neg (by rw [hpk]; exact Bool.false_ne_true)]

theorem groupOf_cons_pos {k : String} {it : Scored} {rest : List Scored}
    (h : keyOf it = k) : groupOf k (it :: rest) = it :: groupOf k rest := by
  simp [groupOf, List.filter_cons, h]

theorem groupOf_cons_neg {k : String} {it : Scored} {rest : List Scored}
    (h : keyOf it ≠ k) : groupOf k (it :: rest) = groupOf k rest := by
  simp [groupOf, List.filter_cons, h]

theorem runBest_cons (init : Option Scored) (y : Scored) (g : List Scored) :
    runBest init (y :: g) =
      runBest
        (match init with
          | none => some y
          | some a =>
            some (if a.ViralityScore < y.ViralityScore then y else a)) g := rfl

theorem runBest_some_cons (a y : Scored) (g : List Scored) :
    runBest (some a) (y :: g) =
      runBest (some (if a.ViralityScore < y.ViralityScore then y else a)) g :=
  rfl

theorem valAt_foldl (l : List Scored) :
    ∀ (seen : List (String × Scored)) (k : String),
      valAt (l.foldl dedupStep seen) k = runBest (valAt seen k) (groupOf k l) := by
  induction l with
  | nil => intro seen k; rfl
  | cons it rest ih =>
    intro seen k
    rw [List.foldl_cons, ih (dedupStep seen it) k, valAt_dedupStep]
    by_cases hk : k = keyOf it
    · rw [if_pos hk, groupOf_cons_pos hk.symm, runBest_cons]
    · rw [if_neg hk, groupOf_cons_neg (fun h => hk h.symm)]

theorem runBest_some_spec :
    ∀ (g : List Scored) (a t : Scored), runBest (some a) g = some t →
      (t = a ∧ ∀ s ∈ g, s.ViralityScore ≤ a.ViralityScore) ∨
      (∃ pre post, g = pre ++ t :: post ∧
        a.ViralityScore < t.ViralityScore ∧
        (∀ s ∈ pre, s.ViralityScore < t.ViralityScore) ∧
        (∀ s ∈ post, s.ViralityScore ≤ t.ViralityScore)) := by
  intro g
  induction g with
  | nil =>
    intro a t h
    left
    exact ⟨(Option.some.inj h).symm, by simp⟩
  | cons y ys ih =>
    intro a t h
    rw [runBest_some_cons] at h
    by_cases hlt : a.ViralityScore < y.ViralityScore
    · rw [if_pos hlt] at h
      rcases ih y t h with ⟨ht, hall⟩ | ⟨pre, post, hg, hlt2, hpre, hpost⟩
      · subst ht
        right
        exact ⟨[], ys, by rfl, hlt, by simp, hall⟩
      · right
        refine ⟨y :: pre, post, by rw [hg]; rfl, lt_trans hlt hlt2, ?_, hpost⟩
        intro s hs
        rcases List.mem_cons.mp hs with h2 | h2
        · rw [h2]; exact hlt2
        · exact hpre s h2
    · rw [if_neg hlt] at h
      have hy : y.ViralityScore ≤ a.ViralityScore := le_of_not_lt hlt
      rcases ih a t h with ⟨ht, hall⟩ | ⟨pre, post, hg, hlt2, hpre, hpost⟩
      · left
        refine ⟨ht, ?_⟩
        intro s hs
        rcases List.mem_cons.mp hs with h2 | h2
        · rw [h2]; exact hy
        · exact hall s h2
      · right
        refine ⟨y :: pre, post, by rw [hg]; rfl, hlt2, ?_, hpost⟩
        intro s hs
        rcases List.mem_cons.mp hs with h2 | h2
        · rw [h2]; exact lt_of_le_of_lt hy hlt2
        · exact hpre s h2

theorem runBest_none_spec (g : List Scored) (t : Scored)
    (h : runBest none g = some t) :
    ∃ pre post, g = pre ++ t :: post ∧
      (∀ s ∈ pre, s.ViralityScore < t.ViralityScore) ∧
      (∀ s ∈ post, s.ViralityScore ≤ t.ViralityScore) := by
  cases g with
  | nil => exact absurd h (by simp [runBest])
  | cons y ys =>
    rw [runBest_cons] at h
    rcases runBest_some_spec ys y t h with ⟨ht, hall⟩ |
        ⟨pre, post, hg, hlt, hpre, hpost⟩
    · subst ht
      exact ⟨[], ys, rfl, by simp, hall⟩
    · refine ⟨y :: pre, post, by rw [hg]; rfl, ?_, hpost⟩
      intro s hs
      rcases List.mem_cons.mp hs with h2 | h2
      · rw [h2]; exact hlt
      · exact hpre s h2

theorem runBest_some_isSome :
    ∀ (g : List Scored) (a : Scored), ∃ t, runBest (some a) g = some t := by
  intro g
  induction g with
  | nil => intro a; exact ⟨a, rfl⟩
  | cons y ys ih =>
    intro a
    rw [runBest_some_cons]
    exact ih _

theorem runBest_none_isSome (g : List Scored) (h : g ≠ []) :
    ∃ t, runBest none g = some t := by
  cases g with
  | nil => exact absurd rfl h
  | cons y ys =>
    rw [runBest_cons]
    exact runBest_some_isSome ys y

theorem dedupStep_keyOf (seen : List (String × Scored)) (it : Scored)
    (h : ∀ p ∈ seen, keyOf p.2 = p.1) :
    ∀ p ∈ dedupStep seen it, keyOf p.2 = p.1 := by
  intro p hp
  unfold dedupStep at hp
  cases hf : seen.find? (fun q => q.1 == keyOf it) with
  | none =>
    rw [hf] at hp
    rcases List.mem_append.mp hp with h1 | h1
    · exact h p h1
    · rw [List.mem_singleton.mp h1]
  | some q =>
    rw [hf] at hp
    rcases List.mem_map.mp hp with ⟨x, hx, hfx⟩
    by_cases hc : (x.1 == keyOf it &&
        decide (x.2.ViralityScore < it.ViralityScore)) = true
    · rw [if_pos hc] at hfx
      rw [← hfx]
      have hx1 : x.1 = keyOf it ∧ x.2.ViralityScore < it.ViralityScore := by
        simpa using hc
      show keyOf it = x.1
      exact hx1.1.symm
    · rw [if_neg hc] at hfx
      rw [← hfx]
      exact h x hx

theorem foldl_dedupStep_keyOf (l : List Scored) :
    ∀ (seen : List (String × Scored)), (∀ p ∈ seen, keyOf p.2 = p.1) →
      ∀ p ∈ l.foldl dedupStep seen, keyOf p.2 = p.1 := by
  induction l with
  | nil => intro seen h; exact h
  | cons it rest ih =>
    intro seen h
    rw [List.foldl_cons]
    exact ih (dedupStep seen it) (dedupStep_keyOf seen it h)

theorem dedupStep_fsts (seen : List (String × Scored)) (it : Scored) :
    ((dedupStep seen it).map Prod.fst = seen.map Prod.fst) ∨
    ((dedupStep seen it).map Prod.fst = seen.map Prod.fst ++ [keyOf it] ∧
      keyOf it ∉ seen.map Prod.fst) := by
  unfold dedupStep
  cases hf : seen.find? (fun q => q.1 == keyOf it) with
  | none =>
    right
    constructor
    · simp
    · intro hmem
      rcases List.mem_map.mp hmem with ⟨p, hp, hp1⟩
      exact List.find?_eq_none.mp hf p hp (by rw [hp1]; exact beq_self_eq_true _)
  | some q =>
    left
    rw [List.map_map]
    apply List.map_congr_left
    intro p _
    exact fst_dedupStep_entry it p

theorem foldl_dedupStep_nodup (l : List Scored) :
    ∀ (seen : List (String × Scored)), ((seen.map Prod.fst).Nodup) →
      (((l.foldl dedupStep seen).map Prod.fst).Nodup) := by
  induction l with
  | nil => intro seen h; exact h
  | cons it rest ih =>
    intro seen h
    rw [List.foldl_cons]
    apply ih
    rcases dedupStep_fsts seen it with heq | ⟨heq, hnot⟩
    · rw [heq]; exact h
    · rw [heq]
      simp [List.nodup_append, h, hnot]

theorem find?_fst_of_mem {m : List (String × Scored)}
    (hnd : (m.map Prod.fst).Nodup) {p : String × Scored} (hp : p ∈ m) :
    m.find? (fun q => q.1 == p.1) = some p := by
  induction m with
  | nil => simp at hp
  | cons q m' ih =>
    rcases List.mem_cons.mp hp with h | h
    · subst h
      exact List.find?_cons_of_pos _ (beq_self_eq_true _)
    · have hq : ¬ (q.1 == p.1) = true := by
        intro hbeq
        have h1 : q.1 = p.1 := beq_iff_eq.mp hbeq
        have hmem : p.1 ∈ m'.map Prod.fst := List.mem_map_of_mem _ h
        rw [List.map_cons] at hnd
        exact (List.nodup_cons.mp hnd).1 (h1 ▸ hmem)
      rw [@List.find?_cons_of_neg _ (fun r => r.1 == p.1) q m' hq]
      rw [List.map_cons] at hnd
      exact ih (List.nodup_cons.mp hnd).2 h

theorem rankSort_sorted (l : List Scored) :
    (rankSort l).Pairwise (fun a b => b.ViralityScore ≤ a.ViralityScore) := by
  have h : (List.mergeSort l
        (fun a b => decide (b.ViralityScore ≤ a.ViralityScore))).Pairwise
      (fun a b => decide (b.ViralityScore ≤ a.ViralityScore) = true) :=
    List.sorted_mergeSort
      (fun a b c h1 h2 => by
        simp only [decide_eq_true_eq] at *
        exact le_trans h2 h1)
      (fun a b => by
        simp only [Bool.or_eq_true, decide_eq_true_eq]
        exact le_total _ _)
      l
  refine List.Pairwise.imp ?_ h
  intro a b hab
  exact of_decide_eq_true hab

/-- C2: the ranked output of `score_items` has pairwise-distinct identity
keys and is sorted by composite score in descending order; every scored
item's key is represented by a surviving item, and each survivor is the
first-encountered maximum of its key group — every earlier group member has a
strictly smaller score and every later one a smaller-or-equal score (strictly
highest wins, ties keep the first).  On the concrete pair sharing url "u"
with scores 0.4 and 0.7 the ranked output is exactly the 0.7 item. -/
theorem c2_dedup_rank (now : Int) (useTrends : Bool)
    (fetch : String → Except Unit (List ℚ)) (items : List Item) :
    (((score_items now useTrends fetch items).map keyOf).Nodup) ∧
    ((score_items now useTrends fetch items).Pairwise
      (fun a b => b.ViralityScore ≤ a.ViralityScore)) ∧
    (∀ s ∈ scoredList now useTrends fetch items,
      ∃ t ∈ score_items now useTrends fetch items, keyOf t = keyOf s) ∧
    (∀ t ∈ score_items now useTrends fetch items,
      ∃ pre post,
        groupOf (keyOf t) (scoredList now useTrends fetch items) =
          pre ++ t :: post ∧
        (∀ s ∈ pre, s.ViralityScore < t.ViralityScore) ∧
        (∀ s ∈ post, s.ViralityScore ≤ t.ViralityScore)) ∧
    rank [exDupLow, exDupHigh] = [exDupHigh] := by
  have hscore : score_items now useTrends fetch items =
      rankSort (dedupe (scoredList now useTrends fetch items)) := rfl
  set out := scoredList now useTrends fetch items with hout
  set assoc := out.foldl dedupStep [] with hassoc
  have hkeys : ∀ p ∈ assoc, keyOf p.2 = p.1 :=
    foldl_dedupStep_keyOf out [] (by simp)
  have hnd : (assoc.map Prod.fst).Nodup :=
    foldl_dedupStep_nodup out [] (by simp)
  have hval : ∀ k, valAt assoc k = runBest none (groupOf k out) := by
    intro k
    exact valAt_foldl out [] k
  have hkeysmap : (dedupe out).map keyOf = assoc.map Prod.fst := by
    rw [dedupe, List.map_map]
    exact List.map_congr_left (fun p hp => hkeys p hp)
  have hmemdedup : ∀ t ∈ dedupe out,
      runBest none (groupOf (keyOf t) out) = some t := by
    intro t ht
    rcases List.mem_map.mp ht with ⟨p, hp, hpt⟩
    have hk : keyOf t = p.1 := by rw [← hpt]; exact hkeys p hp
    have hfind : assoc.find? (fun q => q.1 == p.1) = some p :=
      find?_fst_of_mem hnd hp
    have hv : valAt assoc (keyOf t) = some t := by
      rw [valAt, hk, hfind, Option.map_some', hpt]
    rw [← hval (keyOf t)]
    exact hv
  refine ⟨?_, ?_, ?_, ?_, by decide⟩
  · rw [hscore]
    have hperm : List.Perm ((rankSort (dedupe out)).map keyOf)
        ((dedupe out).map keyOf) :=
      (List.mergeSort_perm (dedupe out) _).map keyOf
    rw [hperm.nodup_iff, hkeysmap]
    exact hnd
  · rw [hscore]
    exact rankSort_sorted (dedupe out)
  · intro s hs
    have hsg : s ∈ groupOf (keyOf s) out := by
      rw [groupOf]
      exact List.mem_filter.mpr ⟨hs, beq_self_eq_true _⟩
    have hne : groupOf (keyOf s) out ≠ [] := by
      intro h0
      rw [h0] at hsg
      simp at hsg
    rcases runBest_none_isSome _ hne with ⟨t, hrt⟩
    have hv : valAt assoc (keyOf s) = some t := by rw [hval]; exact hrt
    rw [valAt] at hv
    cases hfind : assoc.find? (fun q => q.1 == keyOf s) with
    | none => rw [hfind] at hv; simp at hv
    | some pr =>
      rw [hfind] at hv
      simp only [Option.map_some'] at hv
      have hpr : pr ∈ assoc := List.mem_of_find?_eq_some hfind
      have hprk : (pr.1 == keyOf s) = true := by
        have h2 := List.find?_some hfind
        exact h2
      refine ⟨t, ?_, ?_⟩
      · rw [hscore, mem_rankSort, dedupe]
        rw [← Option.some.inj hv]
        exact List.mem_map_of_mem _ hpr
      · rw [← Option.some.inj hv]
        have := hkeys pr hpr
        rw [this]
        exact beq_iff_eq.mp hprk
  · intro t ht
    have htd : t ∈ dedupe out := by
      rw [hscore, mem_rankSort] at ht
      exact ht
    exact runBest_none_spec _ _ (hmemdedup t htd)

/-- C2 witness: in a concrete two-item batch whose items share the identity
key "u", the key of the first scored item is represented in the ranked
output. -/
theorem c2_dedup_rank_witness :
    ∃ t ∈ score_items 0 false fetchNone [itemDupA, itemVel],
      keyOf t = keyOf ((scoredList 0 false fetchNone
        [itemDupA, itemVel]).headD exDupLow) :=
  (c2_dedup_rank 0 false fetchNone [itemDupA, itemVel]).2.2.1 _ (by decide)

end SportsTrendRanker
